import Mathlib

/-!
Verification of the word-analysis program in `src/words.py`.

The program is embedded shallowly:

* A Python string is a `List Char` (`Line`); `str.lower` is `Char.toLower`
  mapped over the characters (the inputs are ASCII words).
* `collections.Counter(self.word)` is the function `fun c => w.count c`
  together with `dedupFirst w` for the Counter's key enumeration order
  (keys appear in order of first occurrence).  The `counts` attribute is
  computed once from the immutable normalized word and never mutated, so
  deriving it from `word` is faithful.
* A Python `dict` is an association list; the assignment `d[k] = v` is
  `insertAssoc` (replace the existing entry for `k` in place, keeping its
  position, else append at the end), which is the observable behaviour of
  insertion-ordered `dict`s.
* `Word.anagrams` stores the normalized word of each appended partner.
  The program only ever reads `token.word` from the stored references
  (in `Word.asDict`), and inside one length bin the normalized word is the
  dict key, hence unique, so this identification is exact.
* `WordList.__init__` hands each length bin to `processBin` through a
  `concurrent.futures.ProcessPoolExecutor`.  Submitting the bound method
  pickles `self` and the bin; `processBin` therefore mutates worker-local
  copies.  The futures are put in a dict that is never read again: no
  `result()` call, no merge of the returned value, and no exception
  retrieval.  Consequently the parent-process `self.words` mapping stays
  exactly as built by the dict comprehension, which is how `wordListWords`
  models it, and a raised exception inside a worker neither aborts the run
  nor prevents the JSON export performed by `main`.
-/

namespace Words

abbrev Line := List Char

/-- `self.wordle`: the pair of running similarity counters of one word. -/
structure Wordle where
  position : Nat
  common : Nat
deriving DecidableEq

/-- `Wordle.asDict`. -/
def Wordle.asDict (w : Wordle) : List (String × Nat) :=
  [("position", w.position), ("common", w.common)]

/-- One record of the word list (`class Word`).  `counts` is derived from
`word` (see the module comment); `anagrams` stores the partners' normalized
words. -/
structure Word where
  original : Line
  word : Line
  length : Nat
  acronym : Bool
  proper : Bool
  palindrome : Bool
  anagrams : List Line
  subwords : List Line
  wordle : Wordle
deriving DecidableEq

/-- `str.isupper` for ASCII strings: at least one cased (here: alphabetic)
character, and every cased character uppercase. -/
def pyIsUpper (s : Line) : Bool :=
  s.any (fun c => c.isAlpha) && s.all (fun c => !c.isAlpha || c.isUpper)

/-- `Word.__init__`.  `word[0]` on the empty string would raise in Python;
the program only constructs records for lines matching the qualification
regex, which are nonempty, so the `headD` default is never reached there. -/
def mkWord (s : Line) : Word :=
  let w := s.map Char.toLower
  { original := s
    word := w
    length := w.length
    acronym := pyIsUpper s
    proper := !pyIsUpper s && (s.headD 'a').isUpper
    palindrome := decide (w = w.reverse)
    anagrams := []
    subwords := []
    wordle := { position := 0, common := 0 } }

instance : Inhabited Word := ⟨mkWord []⟩

/-- Distinct elements of a list in order of first occurrence: the key
order of `collections.Counter` built from that list. -/
def dedupFirstAux : List Char → List Char → List Char
  | [], _ => []
  | c :: cs, seen => if c ∈ seen then dedupFirstAux cs seen else c :: dedupFirstAux cs (c :: seen)

def dedupFirst (l : List Char) : List Char := dedupFirstAux l []

/-- `Word.isAnagram`: `self.counts == other.counts`.  Two zero-free
counters are equal exactly when they agree on every key occurring in
either of them. -/
def Word.isAnagram (a b : Word) : Bool :=
  (a.word ++ b.word).all (fun c => a.word.count c == b.word.count c)

/-- The first increment of `Word.wordleScore`:
`sum(1 for i in range(len(self.word)) if self.word[i] == other.word[i])`. -/
def posDelta (a b : Word) : Nat :=
  ((List.range a.word.length).filter (fun i => a.word[i]? == b.word[i]?)).length

/-- The second increment of `Word.wordleScore`:
`sum(min(self.counts[letter], other.counts[letter]) for letter in self.counts)`. -/
def commonDelta (a b : Word) : Nat :=
  ((dedupFirst a.word).map (fun c => min (a.word.count c) (b.word.count c))).sum

/-- `Word.wordleScore`: guarded by equal lengths, adds both deltas. -/
def Word.wordleScore (a other : Word) : Word :=
  if a.length = other.length then
    { a with wordle := { position := a.wordle.position + posDelta a other
                         common := a.wordle.common + commonDelta a other } }
  else a

/-- A JSON-exportable value as produced by `Word.asDict`. -/
inductive PyVal where
  | str : Line → PyVal
  | bool : Bool → PyVal
  | counts : List (Char × Nat) → PyVal
  | strs : List Line → PyVal
  | obj : List (String × Nat) → PyVal
deriving DecidableEq

/-- `Word.asDict`.  Note that the source builds the `"subwords"` entry
from `self.anagrams` as well (`[token.word for token in self.anagrams]`). -/
def Word.asDict (w : Word) : List (String × PyVal) :=
  [("original", PyVal.str w.original),
   ("word", PyVal.str w.word),
   ("proper", PyVal.bool w.proper),
   ("palindrome", PyVal.bool w.palindrome),
   ("counts", PyVal.counts ((dedupFirst w.word).map (fun c => (c, w.word.count c)))),
   ("anagrams", PyVal.strs w.anagrams),
   ("subwords", PyVal.strs w.anagrams),
   ("wordle", PyVal.obj w.wordle.asDict)]

/-- Python dict assignment `d[k] = v` on an association list. -/
def insertAssoc {α β : Type} [DecidableEq α] : List (α × β) → α → β → List (α × β)
  | [], k, v => [(k, v)]
  | p :: ps, k, v => if p.1 = k then (k, v) :: ps else p :: insertAssoc ps k v

/-- Python dict lookup `d[k]` on an association list. -/
def lookupA {α β : Type} [DecidableEq α] : List (α × β) → α → Option β
  | [], _ => none
  | p :: ps, k => if p.1 = k then some p.2 else lookupA ps k

/-- The qualification regex `^[a-zA-Z]{minlen,}$` applied with `re.match`:
every character in the class `[a-zA-Z]` and at least `minlen` repetitions. -/
def wordre (minlen : Nat) (line : Line) : Bool :=
  decide (minlen ≤ line.length) &&
    line.all (fun c =>
      (decide ('a' ≤ c) && decide (c ≤ 'z')) || (decide ('A' ≤ c) && decide (c ≤ 'Z')))

/-- `self.words = {line: Word(line) for line in lines if wordre.match(line)}`. -/
def mkWords (minlen : Nat) (lines : List Line) : List (Line × Word) :=
  (lines.filter (wordre minlen)).foldl (fun d line => insertAssoc d line (mkWord line)) []

/-- `d.values()` of an insertion-ordered dict. -/
def wordValues (d : List (Line × Word)) : List Word := d.map Prod.snd

/-- The bin `self.bins[L]` built by
`for word in self.words.values(): self.bins[word.length][word.word] = word`. -/
def binFor (ws : List Word) (L : Nat) : List (Line × Word) :=
  ws.foldl (fun d w => if w.length = L then insertAssoc d w.word w else d) []

/-- `self.words` as observed by the parent process once `__init__` returns:
the freshly built mapping (see the module comment on the process pool). -/
def wordListWords (minlen : Nat) (lines : List Line) : List (Line × Word) :=
  mkWords minlen lines

/-- `WordList.asDict`, the structure serialized by `json.dump` in `main`. -/
def wordListAsDict (minlen : Nat) (lines : List Line) : List (Line × List (String × PyVal)) :=
  (wordListWords minlen lines).map (fun p => (p.1, p.2.asDict))

/-- The index pairs visited by `itertools.combinations(bin.values(), 2)`:
`(i, j)` with `i < j < n`, in lexicographic order. -/
def pairIdx (n : Nat) : List (Nat × Nat) :=
  (List.range n).flatMap (fun i => (List.range' (i + 1) (n - (i + 1))).map (fun j => (i, j)))

/-- Element access in a bin's value list. -/
def wAt (ws : List Word) (k : Nat) : Word := (ws[k]?).getD default

/-- Effect of one loop iteration of `processBin` on the first element `a`
of the pair: the conditional anagram append, then `a.wordleScore(b)`. -/
def hitA (a b : Word) : Word :=
  (if a.isAnagram b then { a with anagrams := a.anagrams ++ [b.word] } else a).wordleScore b

/-- Effect of one loop iteration of `processBin` on the second element `b`:
the conditional anagram append (gated by the same `a.isAnagram(b)` test),
then `b.wordleScore(a)`.  Both reads of the partner only touch its
immutable fields, so using the pre-iteration values is exact. -/
def hitB (b a : Word) : Word :=
  (if a.isAnagram b then { b with anagrams := b.anagrams ++ [a.word] } else b).wordleScore a

/-- One iteration of the pair loop of `processBin` on the value list. -/
def pairStep (ws : List Word) (i j : Nat) : List Word :=
  (ws.set i (hitA (wAt ws i) (wAt ws j))).set j (hitB (wAt ws j) (wAt ws i))

def foldPairs (ws : List Word) (ps : List (Nat × Nat)) : List Word :=
  ps.foldl (fun s p => pairStep s p.1 p.2) ws

/-- `WordList.processBin`, acting on `bin.values()`. -/
def processBin (bin : List Word) : List Word :=
  foldPairs bin (pairIdx bin.length)

/-- The value returned by `processBin`: the final value of the
`enumerate(..., 1)` counter `i`, i.e. the number of pairs.  When the loop
never runs (fewer than two words in the bin) the local `i` is unbound and
`return i` raises `UnboundLocalError`, modelled as `none`. -/
def processBinRet (bin : List Word) : Option Nat :=
  match pairIdx bin.length with
  | [] => none
  | ps => some ps.length

/-! Concrete inputs used by the evaluations below. -/

def catLine : Line := "cat".toList
def actLine : Line := "act".toList
def dogLine : Line := "dog".toList
def capCatLine : Line := "Cat".toList

def demoLines : List Line := [catLine, actLine]
def demoLines4 : List Line := [catLine, actLine, dogLine, capCatLine]
def dupLines : List Line := [catLine, capCatLine]
def singleCatLines : List Line := [catLine]

def demoBin : List Word := wordValues (binFor (wordValues (mkWords 3 demoLines)) 3)

/-! Claim theorems on concrete inputs. -/

/-- C1: the claim says the canonical mapping is updated with the
post-analysis records before export.  In the code the futures of the
process pool are never read and no merge exists, so the mapping that
`WordList.asDict` serializes still holds the freshly constructed records:
for the input lines `cat`, `act` the exported record of `cat` has an empty
anagram list and zero counters, although `processBin` on the length-3 bin
computes the record with anagram `act` and counters `(1, 3)`. -/
theorem export_ignores_worker_analysis :
    wordListAsDict 3 demoLines =
      [(catLine, Word.asDict (mkWord catLine)), (actLine, Word.asDict (mkWord actLine))] ∧
    (mkWord catLine).anagrams = [] ∧
    (mkWord catLine).wordle = { position := 0, common := 0 } ∧
    (wAt (processBin demoBin) 0).anagrams = [actLine] ∧
    (wAt (processBin demoBin) 0).wordle = { position := 1, common := 3 } := by
  decide

/-- C2 counterexample: on the input `cat`, `act`, `dog`, `Cat` the record
for `Cat` overwrites the record for `cat` under the bin key `cat`, so the
length-3 bin holds three entries and no pair of two normalized-`cat`
records is ever enumerated; moreover the final (exported) record of `cat`
has an empty anagram list and zero counters, contradicting both the
claimed `Cat`/`cat` comparison with contributions 3/3 and the claimed
mutual anagram lists in the final collection. -/
theorem capCat_shadowing_refutes_example :
    ((binFor (wordValues (mkWords 3 demoLines4)) 3).map Prod.fst) = [catLine, actLine, dogLine] ∧
    (wordValues (binFor (wordValues (mkWords 3 demoLines4)) 3)).map Word.original
      = [capCatLine, actLine, dogLine] ∧
    lookupA (wordListWords 3 demoLines4) catLine = some (mkWord catLine) ∧
    (mkWord catLine).anagrams = [] ∧
    (mkWord catLine).wordle = { position := 0, common := 0 } ∧
    lookupA (wordListWords 3 demoLines4) capCatLine = some (mkWord capCatLine) ∧
    (mkWord capCatLine).wordle = { position := 0, common := 0 } := by
  decide

/-- C2 (amended): for the input lines `cat`, `act`, `dog`, `Cat` with
`minlen = 3` the collection holds four records, one per distinct raw line;
the length-3 bin holds three entries because the record for `Cat`
overwrites the record for `cat` under the normalized key `cat`, so the
pair `Cat`/`cat` is never compared; running `processBin` on that bin makes
the records for `Cat` and `act` mutual anagrams with positionMatches 1 and
commonLetters 3 from their pair while `dog` is in neither list; and the
collection observed by the exporter keeps the pre-analysis records (empty
anagram lists, zero counters) because the worker results are never merged. -/
theorem capCat_demo_actual :
    (wordListWords 3 demoLines4).map Prod.fst = [catLine, actLine, dogLine, capCatLine] ∧
    ((binFor (wordValues (mkWords 3 demoLines4)) 3).map Prod.fst) = [catLine, actLine, dogLine] ∧
    (processBin (wordValues (binFor (wordValues (mkWords 3 demoLines4)) 3))).map
        (fun w => (w.original, w.anagrams, w.wordle.position, w.wordle.common)) =
      [(capCatLine, [actLine], 1, 3), (actLine, [catLine], 1, 3), (dogLine, [], 0, 0)] ∧
    (wordValues (wordListWords 3 demoLines4)).map (fun w => (w.anagrams, w.wordle)) =
      [([], { position := 0, common := 0 }), ([], { position := 0, common := 0 }),
       ([], { position := 0, common := 0 }), ([], { position := 0, common := 0 })] := by
  decide

/-- C3 counterexample: with input lines `cat` and `Cat` the collection has
two records of length 3, but the length-3 partition has a single entry
(the two records share the normalized key `cat`), and the record
constructed from `cat` is a value of no partition entry at all. -/
theorem partition_size_counterexample :
    ((wordValues (mkWords 3 dupLines)).filter (fun w => decide (w.length = 3))).length = 2 ∧
    (binFor (wordValues (mkWords 3 dupLines)) 3).length = 1 ∧
    ((binFor (wordValues (mkWords 3 dupLines)) 3).all
      (fun p => !(p.2 == mkWord catLine))) = true := by
  decide

/-- C4: the claim's biconditional fails in the final collection.  For the
input lines `cat`, `act` the two records have the same length and equal
letter-count multisets (`isAnagram` is true) and are distinct, yet neither
final record lists the other, because the pairwise analysis runs on
worker-process copies whose results are never merged back. -/
theorem anagram_iff_fails_in_export :
    Word.isAnagram (mkWord catLine) (mkWord actLine) = true ∧
    lookupA (wordListWords 3 demoLines) catLine = some (mkWord catLine) ∧
    lookupA (wordListWords 3 demoLines) actLine = some (mkWord actLine) ∧
    (mkWord catLine).length = (mkWord actLine).length ∧
    mkWord catLine ≠ mkWord actLine ∧
    (mkWord catLine).anagrams = [] ∧ (mkWord actLine).anagrams = [] := by
  decide

/-- C8: a failing analyzer task does not abort the run.  For the single
input line `cat` the only bin is a singleton, so `processBin` raises
(`return i` with `i` unbound, modelled by `none`); the exception stays
inside the never-read future, `__init__` returns normally, and `main`
still serializes the full (pre-analysis) collection. -/
theorem worker_failure_swallowed_export_proceeds :
    processBinRet (wordValues (binFor (wordValues (mkWords 3 singleCatLines)) 3)) = none ∧
    wordListAsDict 3 singleCatLines = [(catLine, Word.asDict (mkWord catLine))] := by
  decide

/-- C9 counterexample: the per-word export object contains the key
`subwords` (built, in the source, from `self.anagrams`), which is not
among the seven fields listed by the claim, so the claimed key set with
"no other fields" is wrong. -/
theorem asDict_extra_subwords_field :
    "subwords" ∈ (Word.asDict (mkWord catLine)).map Prod.fst ∧
    "subwords" ∉ (["original", "word", "proper", "palindrome", "counts", "anagrams", "wordle"] :
      List String) := by
  decide

/-! Association-list lemmas: behaviour of Python dict assignment/lookup. -/

theorem lookupA_insertAssoc {α β : Type} [DecidableEq α] (d : List (α × β)) (k k' : α) (v : β) :
    lookupA (insertAssoc d k v) k' = if k' = k then some v else lookupA d k' := by
  induction d with
  | nil =>
    by_cases h : k' = k <;> simp_all [insertAssoc, lookupA] <;> simp [Ne.symm h]
  | cons p ps ih =>
    by_cases hpk : p.1 = k <;> by_cases h : k' = k <;> by_cases hpk' : p.1 = k' <;>
      simp_all [insertAssoc, lookupA]

theorem keys_insertAssoc_mem {α β : Type} [DecidableEq α] (d : List (α × β)) (k a : α) (v : β) :
    a ∈ (insertAssoc d k v).map Prod.fst ↔ a ∈ d.map Prod.fst ∨ a = k := by
  induction d with
  | nil => simp [insertAssoc]
  | cons p ps ih =>
    by_cases hpk : p.1 = k <;> simp_all [insertAssoc] <;> tauto

theorem keys_insertAssoc_nodup {α β : Type} [DecidableEq α] (d : List (α × β)) (k : α) (v : β)
    (h : (d.map Prod.fst).Nodup) : ((insertAssoc d k v).map Prod.fst).Nodup := by
  induction d with
  | nil => simp [insertAssoc]
  | cons p ps ih =>
    by_cases hpk : p.1 = k
    · subst hpk; simpa [insertAssoc] using h
    · have hrw : insertAssoc (p :: ps) k v = p :: insertAssoc ps k v := by
        simp [insertAssoc, hpk]
      rw [hrw, List.map_cons, List.nodup_cons]
      rw [List.map_cons, List.nodup_cons] at h
      refine ⟨fun hmem => ?_, ih h.2⟩
      rcases (keys_insertAssoc_mem ps k p.1 v).mp hmem with h1 | h1
      · exact h.1 h1
      · exact hpk h1

theorem mem_insertAssoc {α β : Type} [DecidableEq α] {d : List (α × β)} {k : α} {v : β}
    {p : α × β} (h : p ∈ insertAssoc d k v) : p ∈ d ∨ p = (k, v) := by
  induction d with
  | nil => simpa [insertAssoc] using h
  | cons q qs ih =>
    by_cases hqk : q.1 = k
    · simp only [insertAssoc, if_pos hqk, List.mem_cons] at h
      rcases h with h | h
      · right; exact h
      · left; exact List.mem_cons_of_mem _ h
    · simp only [insertAssoc, if_neg hqk, List.mem_cons] at h
      rcases h with h | h
      · left; exact h ▸ List.mem_cons_self _ _
      · rcases ih h with h1 | h1
        · left; exact List.mem_cons_of_mem _ h1
        · right; exact h1

theorem lookupA_isSome_iff {α β : Type} [DecidableEq α] (d : List (α × β)) (k : α) :
    (lookupA d k).isSome = true ↔ k ∈ d.map Prod.fst := by
  induction d with
  | nil => simp [lookupA]
  | cons p ps ih =>
    by_cases h : p.1 = k
    · simp [lookupA, h]
    · simp only [lookupA, if_neg h, List.map_cons, List.mem_cons, ih]
      constructor
      · intro hh
        right
        exact hh
      · rintro (hh | hh)
        · exact absurd hh.symm h
        · exact hh

theorem count_eq_one_of_nodup_mem {α : Type} [BEq α] [LawfulBEq α] {l : List α} {a : α}
    (hn : l.Nodup) (hm : a ∈ l) : l.count a = 1 := by
  induction l with
  | nil => simp at hm
  | cons x xs ih =>
    rw [List.nodup_cons] at hn
    rcases List.mem_cons.mp hm with h | h
    · subst h
      rw [List.count_cons_self, List.count_eq_zero.mpr hn.1]
    · rw [List.count_cons_of_ne (fun hax : a = x => hn.1 (hax ▸ h)), ih hn.2 h]

/-! The `self.words` dict comprehension. -/

theorem lookupA_foldWords (xs : List Line) (d : List (Line × Word)) (line : Line) :
    lookupA (xs.foldl (fun acc l => insertAssoc acc l (mkWord l)) d) line =
      if line ∈ xs then some (mkWord line) else lookupA d line := by
  induction xs generalizing d with
  | nil => simp
  | cons x xs ih =>
    simp only [List.foldl_cons, ih, lookupA_insertAssoc, List.mem_cons]
    by_cases h1 : line ∈ xs <;> by_cases h2 : line = x <;> simp_all

theorem mkWords_lookupA (minlen : Nat) (lines : List Line) (line : Line) :
    lookupA (mkWords minlen lines) line =
      if line ∈ lines.filter (wordre minlen) then some (mkWord line) else none := by
  unfold mkWords
  rw [lookupA_foldWords]
  rfl

theorem mkWords_keys_nodup (minlen : Nat) (lines : List Line) :
    ((mkWords minlen lines).map Prod.fst).Nodup := by
  unfold mkWords
  generalize lines.filter (wordre minlen) = xs
  have general : ∀ (xs : List Line) (d : List (Line × Word)), (d.map Prod.fst).Nodup →
      ((xs.foldl (fun acc l => insertAssoc acc l (mkWord l)) d).map Prod.fst).Nodup := by
    intro xs
    induction xs with
    | nil => intro d hd; simpa using hd
    | cons x xs ih => intro d hd; exact ih _ (keys_insertAssoc_nodup _ _ _ hd)
  exact general xs [] (by simp)

/-- The character class `[a-zA-Z]` of the qualification regex is exactly
the ASCII-letter test. -/
theorem charClass_eq_isAlpha (c : Char) :
    ((decide ('a' ≤ c) && decide (c ≤ 'z')) || (decide ('A' ≤ c) && decide (c ≤ 'Z')))
      = c.isAlpha := by
  simp only [Char.isAlpha, Char.isLower, Char.isUpper, Char.le_def, Bool.or_comm]
  rfl

theorem wordre_iff (minlen : Nat) (line : Line) :
    wordre minlen line = true ↔ (line.all Char.isAlpha = true ∧ minlen ≤ line.length) := by
  unfold wordre
  rw [Bool.and_eq_true, decide_eq_true_eq]
  constructor
  · rintro ⟨h1, h2⟩
    refine ⟨?_, h1⟩
    rw [List.all_eq_true] at h2 ⊢
    intro c hc
    rw [← charClass_eq_isAlpha]
    exact h2 c hc
  · rintro ⟨h1, h2⟩
    refine ⟨h2, ?_⟩
    rw [List.all_eq_true] at h1 ⊢
    intro c hc
    rw [charClass_eq_isAlpha]
    exact h1 c hc

/-- C6: a WordRecord is created from a line (the line is a key of the
final collection) if and only if the line occurs in the input, consists
entirely of (ASCII) alphabetic characters, and has length at least the
configured minimum; in particular a line containing a digit or a hyphen,
or shorter than `minlen`, never produces a record — non-qualifying lines
are simply absent from the mapping. -/
theorem record_iff_alpha_minlen (minlen : Nat) (lines : List Line) (line : Line) :
    (lookupA (mkWords minlen lines) line).isSome = true ↔
      (line ∈ lines ∧ line.all Char.isAlpha = true ∧ minlen ≤ line.length) := by
  rw [mkWords_lookupA]
  constructor
  · intro h
    by_cases hm : line ∈ lines.filter (wordre minlen)
    · have hm' := List.mem_filter.mp hm
      exact ⟨hm'.1, ((wordre_iff minlen line).mp hm'.2).1, ((wordre_iff minlen line).mp hm'.2).2⟩
    · rw [if_neg hm] at h
      simp at h
  · rintro ⟨h1, h2, h3⟩
    have hm : line ∈ lines.filter (wordre minlen) :=
      List.mem_filter.mpr ⟨h1, (wordre_iff minlen line).mpr ⟨h2, h3⟩⟩
    rw [if_pos hm]
    rfl

/-- C7: if the same exact (qualifying) line occurs more than once in the
input, the final collection holds exactly one record keyed by that raw
line, and its value is the record built from the line — in particular the
record stored by the last occurrence's overwrite, since `Word(line)` is a
deterministic function of the line. -/
theorem duplicate_lines_collapse (minlen : Nat) (lines : List Line) (line : Line)
    (hq : wordre minlen line = true) (hdup : 2 ≤ lines.count line) :
    ((mkWords minlen lines).map Prod.fst).count line = 1 ∧
    lookupA (mkWords minlen lines) line = some (mkWord line) := by
  have hmem : line ∈ lines := by
    have h0 : 0 < lines.count line := lt_of_lt_of_le (by norm_num) hdup
    exact List.count_pos_iff.mp h0
  have hf : line ∈ lines.filter (wordre minlen) := List.mem_filter.mpr ⟨hmem, hq⟩
  have hlk : lookupA (mkWords minlen lines) line = some (mkWord line) := by
    rw [mkWords_lookupA, if_pos hf]
  have hkeys : line ∈ (mkWords minlen lines).map Prod.fst := by
    rw [← lookupA_isSome_iff, hlk]
    rfl
  exact ⟨count_eq_one_of_nodup_mem (mkWords_keys_nodup minlen lines) hkeys, hlk⟩

theorem duplicate_lines_collapse_witness :
    ((mkWords 3 [catLine, catLine]).map Prod.fst).count catLine = 1 ∧
    lookupA (mkWords 3 [catLine, catLine]) catLine = some (mkWord catLine) :=
  duplicate_lines_collapse 3 [catLine, catLine] catLine (by decide) (by decide)

/-! The length bins. -/

theorem binFor_entries (ws : List Word) (L : Nat) :
    ∀ p ∈ binFor ws L, p.2.length = L ∧ p.1 = p.2.word := by
  have general : ∀ (ws : List Word) (d : List (Line × Word)),
      (∀ p ∈ d, p.2.length = L ∧ p.1 = p.2.word) →
      ∀ p ∈ ws.foldl (fun d w => if w.length = L then insertAssoc d w.word w else d) d,
        p.2.length = L ∧ p.1 = p.2.word := by
    intro ws
    induction ws with
    | nil => intro d hd; simpa using hd
    | cons w ws ih =>
      intro d hd
      simp only [List.foldl_cons]
      by_cases hw : w.length = L
      · rw [if_pos hw]
        refine ih _ (fun p hp => ?_)
        rcases mem_insertAssoc hp with h | h
        · exact hd p h
        · subst h; exact ⟨hw, rfl⟩
      · rw [if_neg hw]
        exact ih _ hd
  exact general ws [] (by simp)

theorem binFor_keys_nodup (ws : List Word) (L : Nat) :
    ((binFor ws L).map Prod.fst).Nodup := by
  have general : ∀ (ws : List Word) (d : List (Line × Word)), (d.map Prod.fst).Nodup →
      (((ws.foldl (fun d w => if w.length = L then insertAssoc d w.word w else d) d).map
        Prod.fst)).Nodup := by
    intro ws
    induction ws with
    | nil => intro d hd; simpa using hd
    | cons w ws ih =>
      intro d hd
      simp only [List.foldl_cons]
      by_cases hw : w.length = L
      · rw [if_pos hw]; exact ih _ (keys_insertAssoc_nodup _ _ _ hd)
      · rw [if_neg hw]; exact ih _ hd
  exact general ws [] (by simp)

theorem binFor_keys_mem (ws : List Word) (L : Nat) (k : Line) :
    k ∈ (binFor ws L).map Prod.fst ↔
      k ∈ (ws.filter (fun w => decide (w.length = L))).map (fun w => w.word) := by
  have general : ∀ (ws : List Word) (d : List (Line × Word)),
      (k ∈ (ws.foldl (fun d w => if w.length = L then insertAssoc d w.word w else d) d).map
        Prod.fst ↔
      (k ∈ d.map Prod.fst ∨
        k ∈ (ws.filter (fun w => decide (w.length = L))).map (fun w => w.word))) := by
    intro ws
    induction ws with
    | nil => intro d; simp
    | cons w ws ih =>
      intro d
      simp only [List.foldl_cons]
      by_cases hw : w.length = L
      · rw [if_pos hw]
        rw [ih, keys_insertAssoc_mem]
        simp [hw]
        tauto
      · rw [if_neg hw]
        rw [ih]
        simp [hw]
  have h := general ws []
  simpa using h

theorem binFor_length (ws : List Word) (L : Nat) :
    (binFor ws L).length =
      ((ws.filter (fun w => decide (w.length = L))).map (fun w => w.word)).dedup.length := by
  have h1 : ((binFor ws L).map Prod.fst).Nodup := binFor_keys_nodup ws L
  have h2 : (((ws.filter (fun w => decide (w.length = L))).map (fun w => w.word)).dedup).Nodup :=
    List.nodup_dedup _
  have h3 : ((binFor ws L).map Prod.fst).toFinset =
      (((ws.filter (fun w => decide (w.length = L))).map (fun w => w.word)).dedup).toFinset := by
    ext a
    simp only [List.mem_toFinset, List.mem_dedup]
    exact binFor_keys_mem ws L a
  calc (binFor ws L).length
      = ((binFor ws L).map Prod.fst).length := by rw [List.length_map]
    _ = ((binFor ws L).map Prod.fst).toFinset.card := (List.toFinset_card_of_nodup h1).symm
    _ = (((ws.filter (fun w => decide (w.length = L))).map
          (fun w => w.word)).dedup).toFinset.card := by rw [h3]
    _ = (((ws.filter (fun w => decide (w.length = L))).map (fun w => w.word)).dedup).length :=
        List.toFinset_card_of_nodup h2

/-- C3 (amended): every entry of a length partition holds a record of that
length, keyed by its normalized word; the partition's keys are distinct;
and the partition's size equals the number of distinct normalized words
among the records of that length (records sharing a normalized form
collapse to a single entry, so a shadowed record is in no partition). -/
theorem binFor_partition_amended (ws : List Word) (L : Nat) :
    (∀ p ∈ binFor ws L, p.2.length = L ∧ p.1 = p.2.word) ∧
    ((binFor ws L).map Prod.fst).Nodup ∧
    (binFor ws L).length =
      ((ws.filter (fun w => decide (w.length = L))).map (fun w => w.word)).dedup.length :=
  ⟨binFor_entries ws L, binFor_keys_nodup ws L, binFor_length ws L⟩

theorem binFor_partition_amended_witness :
    (mkWord capCatLine).length = 3 ∧ catLine = (mkWord capCatLine).word :=
  (binFor_partition_amended (wordValues (mkWords 3 dupLines)) 3).1
    (catLine, mkWord capCatLine) (by decide)

/-! The pair enumeration of `itertools.combinations(values, 2)`. -/

theorem pairIdx_mem (n i j : Nat) : (i, j) ∈ pairIdx n ↔ i < j ∧ j < n := by
  unfold pairIdx
  rw [List.mem_flatMap]
  constructor
  · rintro ⟨a, ha, hm⟩
    simp only [List.mem_map, Prod.mk.injEq] at hm
    obtain ⟨b, hb, rfl, rfl⟩ := hm
    rw [List.mem_range] at ha
    rw [List.mem_range'_1] at hb
    exact ⟨by omega, by omega⟩
  · rintro ⟨hij, hjn⟩
    refine ⟨i, ?_, ?_⟩
    · rw [List.mem_range]
      omega
    · rw [List.mem_map]
      exact ⟨j, by rw [List.mem_range'_1]; omega, rfl⟩

theorem pairIdx_nodup (n : Nat) : (pairIdx n).Nodup := by
  unfold pairIdx
  rw [List.nodup_flatMap]
  constructor
  · intro i _
    exact List.Nodup.map (fun a b h => by simpa using h) (List.nodup_range' _ _)
  · refine (List.pairwise_lt_range n).imp ?_
    intro a b hab p hpa hpb
    simp only [List.mem_map] at hpa hpb
    obtain ⟨x, _, rfl⟩ := hpa
    obtain ⟨y, _, h⟩ := hpb
    injection h with h1 h2
    omega

theorem list_range_sum_mul_two (n : Nat) : (List.range n).sum * 2 = n * (n - 1) := by
  induction n with
  | zero => rfl
  | succ m ih =>
    rw [List.range_succ, List.sum_append, List.sum_cons, List.sum_nil, Nat.add_zero,
      Nat.add_mul, ih]
    cases m with
    | zero => rfl
    | succ k =>
      simp only [Nat.add_sub_cancel]
      ring

theorem pairIdx_length (n : Nat) : (pairIdx n).length * 2 = n * (n - 1) := by
  unfold pairIdx
  rw [List.length_flatMap]
  have hmap : List.map
      (List.length ∘ fun i => (List.range' (i + 1) (n - (i + 1))).map (fun j => (i, j)))
      (List.range n) = List.map (fun i => n - 1 - i) (List.range n) := by
    refine List.map_congr_left ?_
    intro a ha
    simp only [Function.comp_apply, List.length_map, List.length_range']
    omega
  rw [hmap]
  have hrev : List.map (fun i => n - 1 - i) (List.range n) = (List.range n).reverse := by
    conv_rhs => rw [List.range_eq_range']
    rw [List.reverse_range']
    refine List.map_congr_left ?_
    intro a ha
    omega
  rw [hrev, List.sum_reverse, list_range_sum_mul_two]

theorem pairIdx_eq_nil_iff (n : Nat) : pairIdx n = [] ↔ n ≤ 1 := by
  constructor
  · intro h
    by_contra hn
    push_neg at hn
    have hmem : (0, 1) ∈ pairIdx n := (pairIdx_mem n 0 1).mpr ⟨by omega, by omega⟩
    rw [h] at hmem
    simp at hmem
  · intro h
    match n, h with
    | 0, _ => decide
    | 1, _ => decide

theorem processBinRet_eq_some {bin : List Word} (h : pairIdx bin.length ≠ []) :
    processBinRet bin = some (pairIdx bin.length).length := by
  unfold processBinRet
  cases hp : pairIdx bin.length with
  | nil => exact absurd hp h
  | cons q qs => rfl

theorem processBinRet_eq_none {bin : List Word} (h : pairIdx bin.length = []) :
    processBinRet bin = none := by
  unfold processBinRet
  rw [h]

/-- C10: for a bin with at least two words, `processBin` returns the final
value of the `enumerate(..., 1)` counter, the number `n(n-1)/2` of
unordered pairs it enumerated; for a singleton bin the pair loop never
runs, so `return i` reads an unbound local and raises `UnboundLocalError`
(modelled by `none`), making the analyzer task fail. -/
theorem processBinRet_spec (bin : List Word) :
    (2 ≤ bin.length → processBinRet bin = some (bin.length * (bin.length - 1) / 2)) ∧
    (bin.length = 1 → processBinRet bin = none) := by
  constructor
  · intro h2
    have hne : pairIdx bin.length ≠ [] := by
      rw [ne_eq, pairIdx_eq_nil_iff]
      omega
    have hlen : bin.length * (bin.length - 1) / 2 = (pairIdx bin.length).length :=
      Nat.div_eq_of_eq_mul_left (by norm_num) (pairIdx_length bin.length).symm
    rw [processBinRet_eq_some hne, hlen]
  · intro h1
    refine processBinRet_eq_none ?_
    rw [pairIdx_eq_nil_iff]
    omega

theorem processBinRet_spec_witness :
    processBinRet demoBin = some (demoBin.length * (demoBin.length - 1) / 2) ∧
    processBinRet [mkWord catLine] = none :=
  ⟨(processBinRet_spec demoBin).1 (by decide),
   (processBinRet_spec [mkWord catLine]).2 (by decide)⟩

/-! The pairwise analysis: projections of one loop iteration. -/

/-- The amount `wordleScore` adds to `position` (zero across unequal
lengths, which never happens inside one bin). -/
def posContrib (a b : Word) : Nat := if a.length = b.length then posDelta a b else 0

/-- The amount `wordleScore` adds to `common`. -/
def comContrib (a b : Word) : Nat := if a.length = b.length then commonDelta a b else 0

theorem wordleScore_word (a b : Word) : (a.wordleScore b).word = a.word := by
  by_cases h : a.length = b.length <;> simp [Word.wordleScore, h]

theorem wordleScore_length (a b : Word) : (a.wordleScore b).length = a.length := by
  by_cases h : a.length = b.length <;> simp [Word.wordleScore, h]

theorem wordleScore_position (a b : Word) :
    (a.wordleScore b).wordle.position = a.wordle.position + posContrib a b := by
  by_cases h : a.length = b.length <;> simp [Word.wordleScore, posContrib, h]

theorem wordleScore_common (a b : Word) :
    (a.wordleScore b).wordle.common = a.wordle.common + comContrib a b := by
  by_cases h : a.length = b.length <;> simp [Word.wordleScore, comContrib, h]

theorem hitA_word (a b : Word) : (hitA a b).word = a.word := by
  unfold hitA
  split
  · exact wordleScore_word _ _
  · exact wordleScore_word _ _

theorem hitA_length (a b : Word) : (hitA a b).length = a.length := by
  unfold hitA
  split
  · exact wordleScore_length _ _
  · exact wordleScore_length _ _

theorem hitA_position (a b : Word) :
    (hitA a b).wordle.position = a.wordle.position + posContrib a b := by
  unfold hitA
  split
  · exact wordleScore_position _ _
  · exact wordleScore_position _ _

theorem hitA_common (a b : Word) :
    (hitA a b).wordle.common = a.wordle.common + comContrib a b := by
  unfold hitA
  split
  · exact wordleScore_common _ _
  · exact wordleScore_common _ _

theorem hitB_word (b a : Word) : (hitB b a).word = b.word := by
  unfold hitB
  split
  · exact wordleScore_word _ _
  · exact wordleScore_word _ _

theorem hitB_length (b a : Word) : (hitB b a).length = b.length := by
  unfold hitB
  split
  · exact wordleScore_length _ _
  · exact wordleScore_length _ _

theorem hitB_position (b a : Word) :
    (hitB b a).wordle.position = b.wordle.position + posContrib b a := by
  unfold hitB
  split
  · exact wordleScore_position _ _
  · exact wordleScore_position _ _

theorem hitB_common (b a : Word) :
    (hitB b a).wordle.common = b.wordle.common + comContrib b a := by
  unfold hitB
  split
  · exact wordleScore_common _ _
  · exact wordleScore_common _ _

theorem posContrib_congr {a a' b b' : Word} (hw : a.word = a'.word) (hl : a.length = a'.length)
    (hw2 : b.word = b'.word) (hl2 : b.length = b'.length) :
    posContrib a b = posContrib a' b' := by
  unfold posContrib posDelta
  rw [hw, hl, hw2, hl2]

theorem comContrib_congr {a a' b b' : Word} (hw : a.word = a'.word) (hl : a.length = a'.length)
    (hw2 : b.word = b'.word) (hl2 : b.length = b'.length) :
    comContrib a b = comContrib a' b' := by
  unfold comContrib commonDelta
  rw [hw, hl, hw2, hl2]

theorem wAt_set_self {ws : List Word} {i : Nat} {w : Word} (h : i < ws.length) :
    wAt (ws.set i w) i = w := by
  unfold wAt
  rw [List.getElem?_set_self h]
  rfl

theorem wAt_set_ne {ws : List Word} {i k : Nat} {w : Word} (h : i ≠ k) :
    wAt (ws.set i w) k = wAt ws k := by
  unfold wAt
  rw [List.getElem?_set_ne h]

theorem length_pairStep (ws : List Word) (i j : Nat) :
    (pairStep ws i j).length = ws.length := by
  unfold pairStep
  rw [List.length_set, List.length_set]

theorem wAt_pairStep (ws : List Word) (i j k : Nat) (hij : i ≠ j)
    (hi : i < ws.length) (hj : j < ws.length) :
    wAt (pairStep ws i j) k =
      if k = i then hitA (wAt ws i) (wAt ws j)
      else if k = j then hitB (wAt ws j) (wAt ws i)
      else wAt ws k := by
  unfold pairStep
  by_cases hkj : k = j
  · subst hkj
    rw [wAt_set_self (by rw [List.length_set]; exact hj)]
    rw [if_neg (fun h => hij h.symm), if_pos rfl]
  · rw [wAt_set_ne (fun h => hkj h.symm)]
    by_cases hki : k = i
    · subst hki
      rw [wAt_set_self hi, if_pos rfl]
    · rw [wAt_set_ne (fun h => hki h.symm), if_neg hki, if_neg hkj]

theorem pairStep_word (ws : List Word) (i j : Nat) (hij : i ≠ j)
    (hi : i < ws.length) (hj : j < ws.length) (k : Nat) :
    (wAt (pairStep ws i j) k).word = (wAt ws k).word ∧
    (wAt (pairStep ws i j) k).length = (wAt ws k).length := by
  rw [wAt_pairStep ws i j k hij hi hj]
  by_cases hki : k = i
  · subst hki
    rw [if_pos rfl]
    exact ⟨hitA_word _ _, hitA_length _ _⟩
  · rw [if_neg hki]
    by_cases hkj : k = j
    · subst hkj
      rw [if_pos rfl]
      exact ⟨hitB_word _ _, hitB_length _ _⟩
    · rw [if_neg hkj]
      exact ⟨rfl, rfl⟩

/-- Contribution of the pair `p` to the `position` counter of the word at
index `k`: the pair touches `k` as its first or as its second component
(never both, since the enumerated pairs have distinct components). -/
def pairPosContrib (ws : List Word) (k : Nat) (p : Nat × Nat) : Nat :=
  (if p.1 = k then posContrib (wAt ws k) (wAt ws p.2) else 0) +
  (if p.2 = k then posContrib (wAt ws k) (wAt ws p.1) else 0)

/-- Contribution of the pair `p` to the `common` counter of the word at
index `k`. -/
def pairComContrib (ws : List Word) (k : Nat) (p : Nat × Nat) : Nat :=
  (if p.1 = k then comContrib (wAt ws k) (wAt ws p.2) else 0) +
  (if p.2 = k then comContrib (wAt ws k) (wAt ws p.1) else 0)

theorem foldPairs_nil (ws : List Word) : foldPairs ws [] = ws := rfl

theorem foldPairs_cons (ws : List Word) (p : Nat × Nat) (ps : List (Nat × Nat)) :
    foldPairs ws (p :: ps) = foldPairs (pairStep ws p.1 p.2) ps := rfl

theorem pairStep_at_posK (ws : List Word) (p : Nat × Nat) (k : Nat) (hij : p.1 ≠ p.2)
    (hi : p.1 < ws.length) (hj : p.2 < ws.length) :
    (wAt (pairStep ws p.1 p.2) k).wordle.position =
      (wAt ws k).wordle.position + pairPosContrib ws k p := by
  rw [wAt_pairStep ws p.1 p.2 k hij hi hj]
  unfold pairPosContrib
  by_cases hk1 : k = p.1
  · subst hk1
    rw [if_pos rfl, hitA_position, if_pos rfl, if_neg (fun h => hij h.symm)]
    omega
  · rw [if_neg hk1]
    by_cases hk2 : k = p.2
    · subst hk2
      rw [if_pos rfl, hitB_position, if_neg (fun h => hk1 h.symm), if_pos rfl]
      omega
    · rw [if_neg hk2, if_neg (fun h => hk1 h.symm), if_neg (fun h => hk2 h.symm)]
      omega

theorem pairStep_at_comK (ws : List Word) (p : Nat × Nat) (k : Nat) (hij : p.1 ≠ p.2)
    (hi : p.1 < ws.length) (hj : p.2 < ws.length) :
    (wAt (pairStep ws p.1 p.2) k).wordle.common =
      (wAt ws k).wordle.common + pairComContrib ws k p := by
  rw [wAt_pairStep ws p.1 p.2 k hij hi hj]
  unfold pairComContrib
  by_cases hk1 : k = p.1
  · subst hk1
    rw [if_pos rfl, hitA_common, if_pos rfl, if_neg (fun h => hij h.symm)]
    omega
  · rw [if_neg hk1]
    by_cases hk2 : k = p.2
    · subst hk2
      rw [if_pos rfl, hitB_common, if_neg (fun h => hk1 h.symm), if_pos rfl]
      omega
    · rw [if_neg hk2, if_neg (fun h => hk1 h.symm), if_neg (fun h => hk2 h.symm)]
      omega

/-- Accumulation over an arbitrary list of index pairs with distinct,
in-range components: the pair loop leaves `word`/`length` untouched and
adds, to each index `k`, exactly the contributions of the pairs that
mention `k`, all computed from the initial (immutable) words. -/
theorem foldPairs_spec (ps : List (Nat × Nat)) : ∀ (ws : List Word),
    (∀ p ∈ ps, p.1 ≠ p.2 ∧ p.1 < ws.length ∧ p.2 < ws.length) → ∀ (k : Nat),
    (foldPairs ws ps).length = ws.length ∧
    (wAt (foldPairs ws ps) k).word = (wAt ws k).word ∧
    (wAt (foldPairs ws ps) k).length = (wAt ws k).length ∧
    (wAt (foldPairs ws ps) k).wordle.position =
      (wAt ws k).wordle.position + (ps.map (pairPosContrib ws k)).sum ∧
    (wAt (foldPairs ws ps) k).wordle.common =
      (wAt ws k).wordle.common + (ps.map (pairComContrib ws k)).sum := by
  induction ps with
  | nil =>
    intro ws hps k
    simp [foldPairs_nil]
  | cons p ps ih =>
    intro ws hps k
    obtain ⟨hij, hi, hj⟩ := hps p (List.mem_cons_self p ps)
    have hlen : (pairStep ws p.1 p.2).length = ws.length := length_pairStep ws p.1 p.2
    have hps' : ∀ q ∈ ps, q.1 ≠ q.2 ∧ q.1 < (pairStep ws p.1 p.2).length ∧
        q.2 < (pairStep ws p.1 p.2).length := by
      intro q hq
      obtain ⟨h1, h2, h3⟩ := hps q (List.mem_cons_of_mem p hq)
      exact ⟨h1, by rw [hlen]; exact h2, by rw [hlen]; exact h3⟩
    obtain ⟨ihlen, ihword, ihlength, ihpos, ihcom⟩ := ih (pairStep ws p.1 p.2) hps' k
    have hpres : ∀ m, (wAt (pairStep ws p.1 p.2) m).word = (wAt ws m).word ∧
        (wAt (pairStep ws p.1 p.2) m).length = (wAt ws m).length :=
      fun m => pairStep_word ws p.1 p.2 hij hi hj m
    have hcongrPos : List.map (pairPosContrib (pairStep ws p.1 p.2) k) ps =
        List.map (pairPosContrib ws k) ps := by
      refine List.map_congr_left ?_
      intro q hq
      unfold pairPosContrib
      rw [posContrib_congr (hpres k).1 (hpres k).2 (hpres q.2).1 (hpres q.2).2,
        posContrib_congr (hpres k).1 (hpres k).2 (hpres q.1).1 (hpres q.1).2]
    have hcongrCom : List.map (pairComContrib (pairStep ws p.1 p.2) k) ps =
        List.map (pairComContrib ws k) ps := by
      refine List.map_congr_left ?_
      intro q hq
      unfold pairComContrib
      rw [comContrib_congr (hpres k).1 (hpres k).2 (hpres q.2).1 (hpres q.2).2,
        comContrib_congr (hpres k).1 (hpres k).2 (hpres q.1).1 (hpres q.1).2]
    refine ⟨?_, ?_, ?_, ?_, ?_⟩
    · rw [foldPairs_cons, ihlen, hlen]
    · rw [foldPairs_cons, ihword, (hpres k).1]
    · rw [foldPairs_cons, ihlength, (hpres k).2]
    · rw [foldPairs_cons, ihpos, hcongrPos, pairStep_at_posK ws p k hij hi hj,
        List.map_cons, List.sum_cons]
      omega
    · rw [foldPairs_cons, ihcom, hcongrCom, pairStep_at_comK ws p k hij hi hj,
        List.map_cons, List.sum_cons]
      omega

/-! The letters of `Counter` keys: order of first occurrence. -/

theorem mem_dedupFirstAux (l : List Char) : ∀ (seen : List Char) (a : Char),
    a ∈ dedupFirstAux l seen ↔ a ∈ l ∧ a ∉ seen := by
  induction l with
  | nil =>
    intro seen a
    simp [dedupFirstAux]
  | cons c cs ih =>
    intro seen a
    by_cases hc : c ∈ seen
    · simp only [dedupFirstAux, if_pos hc, ih, List.mem_cons]
      constructor
      · rintro ⟨h1, h2⟩
        exact ⟨Or.inr h1, h2⟩
      · rintro ⟨h1 | h1, h2⟩
        · subst h1
          exact absurd hc h2
        · exact ⟨h1, h2⟩
    · simp only [dedupFirstAux, if_neg hc, List.mem_cons, ih]
      constructor
      · rintro (h | ⟨h1, h2⟩)
        · subst h
          exact ⟨Or.inl rfl, hc⟩
        · refine ⟨Or.inr h1, fun hs => h2 (Or.inr hs)⟩
      · rintro ⟨h1 | h1, h2⟩
        · subst h1
          exact Or.inl rfl
        · by_cases hac : a = c
          · subst hac
            exact Or.inl rfl
          · right
            refine ⟨h1, fun hs => ?_⟩
            rcases hs with h | h
            · exact hac h
            · exact h2 h

theorem dedupFirst_mem (l : List Char) (a : Char) : a ∈ dedupFirst l ↔ a ∈ l := by
  unfold dedupFirst
  rw [mem_dedupFirstAux]
  simp

theorem dedupFirstAux_nodup (l : List Char) : ∀ (seen : List Char),
    (dedupFirstAux l seen).Nodup := by
  induction l with
  | nil =>
    intro seen
    simp [dedupFirstAux]
  | cons c cs ih =>
    intro seen
    by_cases hc : c ∈ seen
    · simp only [dedupFirstAux, if_pos hc]
      exact ih seen
    · simp only [dedupFirstAux, if_neg hc]
      rw [List.nodup_cons]
      refine ⟨fun hmem => ?_, ih _⟩
      rw [mem_dedupFirstAux] at hmem
      exact hmem.2 (List.mem_cons_self c seen)

theorem dedupFirst_nodup (l : List Char) : (dedupFirst l).Nodup := dedupFirstAux_nodup l []

theorem dedupFirst_toFinset (l : List Char) : (dedupFirst l).toFinset = l.toFinset := by
  ext a
  simp only [List.mem_toFinset]
  exact dedupFirst_mem l a

/-- The sum over the keys of `self.counts` equals the sum over the letters
present in either word: letters of `b` absent from `a` contribute
`min 0 _ = 0`. -/
theorem commonDelta_eq_union_sum (a b : Word) :
    commonDelta a b =
      (a.word.toFinset ∪ b.word.toFinset).sum
        (fun c => min (a.word.count c) (b.word.count c)) := by
  unfold commonDelta
  rw [← List.sum_toFinset _ (dedupFirst_nodup a.word), dedupFirst_toFinset]
  refine Finset.sum_subset Finset.subset_union_left ?_
  intro c hc hcn
  have hz : a.word.count c = 0 := by
    rw [List.count_eq_zero]
    intro hmem
    exact hcn (List.mem_toFinset.mpr hmem)
  rw [hz]
  simp

theorem wAt_length_of_uniform {bin : List Word} {L : Nat} (hL : ∀ w ∈ bin, w.length = L)
    {m : Nat} (hm : m < bin.length) : (wAt bin m).length = L := by
  unfold wAt
  rw [List.getElem?_eq_getElem hm]
  exact hL _ (List.getElem_mem hm)

/-- C5: within one length class, the enumerated index pairs are exactly
the unordered pairs `i < j < n`, each exactly once (no repeats, no
self-pairs), and after `processBin` every word's `position` counter has
grown by the sum, over the pairs mentioning it, of `posDelta` against the
partner (the count of indices at which the two normalized words agree),
and its `common` counter by the corresponding sum of `commonDelta`, which
equals the sum over the letters present in either word of the minimum of
the two letter counts. -/
theorem processBin_pairs_once_adds_deltas (bin : List Word) (L : Nat)
    (hL : ∀ w ∈ bin, w.length = L) :
    ((pairIdx bin.length).Nodup ∧
      ∀ i j : Nat, ((i, j) ∈ pairIdx bin.length ↔ i < j ∧ j < bin.length)) ∧
    (∀ k, k < bin.length →
      (wAt (processBin bin) k).wordle.position =
        (wAt bin k).wordle.position +
          ((pairIdx bin.length).map (fun p =>
            (if p.1 = k then posDelta (wAt bin k) (wAt bin p.2) else 0) +
            (if p.2 = k then posDelta (wAt bin k) (wAt bin p.1) else 0))).sum ∧
      (wAt (processBin bin) k).wordle.common =
        (wAt bin k).wordle.common +
          ((pairIdx bin.length).map (fun p =>
            (if p.1 = k then commonDelta (wAt bin k) (wAt bin p.2) else 0) +
            (if p.2 = k then commonDelta (wAt bin k) (wAt bin p.1) else 0))).sum) ∧
    (∀ a b : Word, commonDelta a b =
      (a.word.toFinset ∪ b.word.toFinset).sum
        (fun c => min (a.word.count c) (b.word.count c))) := by
  refine ⟨⟨pairIdx_nodup bin.length, fun i j => pairIdx_mem bin.length i j⟩, ?_,
    fun a b => commonDelta_eq_union_sum a b⟩
  intro k hk
  have hps : ∀ p ∈ pairIdx bin.length, p.1 ≠ p.2 ∧ p.1 < bin.length ∧ p.2 < bin.length := by
    intro p hp
    have hm := (pairIdx_mem bin.length p.1 p.2).mp hp
    exact ⟨by omega, by omega, by omega⟩
  obtain ⟨_, _, _, hpos, hcom⟩ := foldPairs_spec (pairIdx bin.length) bin hps k
  have hguard : ∀ {m : Nat}, m < bin.length →
      posContrib (wAt bin k) (wAt bin m) = posDelta (wAt bin k) (wAt bin m) := by
    intro m hm
    unfold posContrib
    rw [if_pos (by rw [wAt_length_of_uniform hL hk, wAt_length_of_uniform hL hm])]
  have hguardC : ∀ {m : Nat}, m < bin.length →
      comContrib (wAt bin k) (wAt bin m) = commonDelta (wAt bin k) (wAt bin m) := by
    intro m hm
    unfold comContrib
    rw [if_pos (by rw [wAt_length_of_uniform hL hk, wAt_length_of_uniform hL hm])]
  constructor
  · rw [show processBin bin = foldPairs bin (pairIdx bin.length) from rfl, hpos]
    congr 1
    refine congrArg List.sum (List.map_congr_left ?_)
    intro p hp
    obtain ⟨_, h1, h2⟩ := hps p hp
    unfold pairPosContrib
    rw [hguard h2, hguard h1]
  · rw [show processBin bin = foldPairs bin (pairIdx bin.length) from rfl, hcom]
    congr 1
    refine congrArg List.sum (List.map_congr_left ?_)
    intro p hp
    obtain ⟨_, h1, h2⟩ := hps p hp
    unfold pairComContrib
    rw [hguardC h2, hguardC h1]

theorem processBin_pairs_once_adds_deltas_witness :
    (wAt (processBin demoBin) 0).wordle.position =
      (wAt demoBin 0).wordle.position +
        ((pairIdx demoBin.length).map (fun p =>
          (if p.1 = 0 then posDelta (wAt demoBin 0) (wAt demoBin p.2) else 0) +
          (if p.2 = 0 then posDelta (wAt demoBin 0) (wAt demoBin p.1) else 0))).sum :=
  ((processBin_pairs_once_adds_deltas demoBin 3 (by decide)).2.1 0 (by decide)).1

/-- C9 (amended): for every WordRecord the export object has exactly the
keys `original`, `word`, `proper`, `palindrome`, `counts`, `anagrams`,
`subwords`, `wordle`, in this order, and the `wordle` entry is the object
with the `position` and `common` integers. -/
theorem asDict_fields_amended (w : Word) :
    (Word.asDict w).map Prod.fst =
      ["original", "word", "proper", "palindrome", "counts", "anagrams", "subwords", "wordle"] ∧
    w.wordle.asDict = [("position", w.wordle.position), ("common", w.wordle.common)] := by
  exact ⟨rfl, rfl⟩

end Words
